import Mathlib

/-!
Verification development for the `traffic` repository: a shallow embedding of
the SO6 trajectory model (`src/traffic/so6/so6.py`) and of the AIRAC sector
construction (`src/traffic/data/airac.py`), together with theorems settling
the behavioural claims about these components.

Conventions of the embedding:
* timestamps and coordinates are rationals (`ℚ`), standing for the exact
  values the Python code manipulates;
* altitude limits live in `Alt := WithBot (WithTop ℚ)`, whose `⊥`/`⊤` stand
  for the Python floats `-inf`/`+inf`;
* the 2D polygon algebra (an external collaborator in the source: shapely)
  is modelled by finite sets of atomic regions, `Polygon := Finset ℕ`, with
  `cascaded_union` the set union and geometric `equals` the set equality;
* pandas row filtering is list filtering, `groupby('flight_id')` grouping is
  filtering on equal `flight_id`, preserving row order as pandas does;
* fallible code (Python exceptions) returns `Option`/`Except`.

Methods of the `SO6` class are embedded in state-passing style: each method
returns the pair (returned object, state of the receiver after the call).
The method bodies in the source only ever read `self.data`, hence the second
component is the unchanged receiver.
-/

/-- A 3D point (longitude, latitude, altitude). -/
abbrev Point3 := ℚ × ℚ × ℚ

/-- Altitude limits: a rational, or `⊥`/`⊤` for the floats `-inf`/`+inf`. -/
abbrev Alt := WithBot (WithTop ℚ)

/-- A finite rational altitude viewed as an `Alt`. -/
def altOfRat (q : ℚ) : Alt := ((q : WithTop ℚ) : Alt)

/-- Multiplication by 100 as applied in `Flight.intersects`
(`100*layer.lower`, `100*layer.upper`): finite values are scaled,
infinities are preserved, exactly as for Python floats. -/
def scale100 (a : Alt) : Alt := WithBot.map (WithTop.map (fun q => 100 * q)) a

/-- One row of the SO6 trajectory table (`so6.py`): a timestamped 3D segment
of one flight.  Column layout after `parse_so6`. -/
structure Segment where
  flight_id : ℤ
  callsign : String
  origin : String
  destination : String
  aircraft : String
  time1 : ℚ
  time2 : ℚ
  lon1 : ℚ
  lat1 : ℚ
  alt1 : ℚ
  lon2 : ℚ
  lat2 : ℚ
  alt2 : ℚ
  deriving DecidableEq, Repr

/-- The SO6 trajectory table: the full list of segment rows. -/
structure SO6 where
  data : List Segment
  deriving DecidableEq, Repr

/-- The group of rows sharing one `flight_id`, in original row order
(pandas `groupby('flight_id').get_group`). -/
def SO6.group (s : SO6) (fid : ℤ) : List Segment :=
  s.data.filter (fun r => decide (r.flight_id = fid))

/-- `SO6.flight_ids`: `set(self.data.flight_id)`. -/
def SO6.flight_ids (s : SO6) : Finset ℤ :=
  (s.data.map (fun r => r.flight_id)).toFinset

/-- `SO6.__len__`: `len(self.flight_ids)`. -/
def SO6.len (s : SO6) : ℕ := s.flight_ids.card

/-- `SO6.at`: keeps rows with `time1 <= time` and `time2 > time`.
Returns (new SO6, receiver after the call). -/
def SO6.at' (s : SO6) (time : ℚ) : SO6 × SO6 :=
  (⟨s.data.filter (fun r => decide (r.time1 ≤ time ∧ time < r.time2))⟩, s)

/-- `SO6.between`: keeps rows with `time1 <= after` and `time2 >= before`.
Returns (new SO6, receiver after the call). -/
def SO6.between (s : SO6) (before after : ℚ) : SO6 × SO6 :=
  (⟨s.data.filter (fun r => decide (r.time1 ≤ after ∧ before ≤ r.time2))⟩, s)

/-- `SO6.select`: keeps rows whose callsign is in the given collection
(`self.data.callsign.isin(query)`).  Returns (new SO6, receiver). -/
def SO6.select (s : SO6) (query : List String) : SO6 × SO6 :=
  (⟨s.data.filter (fun r => query.any (fun c => decide (c = r.callsign)))⟩, s)

/-- `Decimal(x).quantize(Decimal('0.00'), rounding=ROUND_DOWN)`:
truncation *toward zero* at two decimal places. -/
def roundDown2 (q : ℚ) : ℚ :=
  ((if 0 ≤ q then ⌊q * 100⌋ else ⌈q * 100⌉ : ℤ) : ℚ) / 100

/-- `Decimal(x).quantize(Decimal('0.00'), rounding=ROUND_UP)`:
rounding *away from zero* at two decimal places. -/
def roundUp2 (q : ℚ) : ℚ :=
  ((if 0 ≤ q then ⌈q * 100⌉ else ⌊q * 100⌋ : ℤ) : ℚ) / 100

/-- The membership test of the numexpr query in `inside_bbox`:
`west <= lon1 <= east & south <= lat1 <= north`. -/
def inBox (west east south north : ℚ) (r : Segment) : Bool :=
  decide (west ≤ r.lon1 ∧ r.lon1 ≤ east ∧ south ≤ r.lat1 ∧ r.lat1 ≤ north)

/-- The callsigns of the rows whose start point satisfies the box query
(`set(data.callsign)` for the rows retained by the numexpr query). -/
def bboxCallsigns (s : SO6) (west east south north : ℚ) : List String :=
  (s.data.filter (inBox west east south north)).map (fun r => r.callsign)

/-- `SO6.inside_bbox`: rounds the bounds (west/south with `ROUND_DOWN`,
east/north with `ROUND_UP`), selects the rows whose start point satisfies
the box query, collects their callsigns, and keeps every group of rows
whose first row's callsign belongs to that set.
Returns (new SO6, receiver after the call). -/
def SO6.inside_bbox (s : SO6) (bounds : ℚ × ℚ × ℚ × ℚ) : SO6 × SO6 :=
  (⟨s.data.filter (fun r =>
      match (s.group r.flight_id).head? with
      | some g0 => (bboxCallsigns s (roundDown2 bounds.1) (roundUp2 bounds.2.2.1)
          (roundDown2 bounds.2.1) (roundUp2 bounds.2.2.2)).any
          (fun c => decide (c = g0.callsign))
      | none => false)⟩, s)

/-- Example segment: flight 1, first leg, starts far from the unit box. -/
def seg1A : Segment :=
  { flight_id := 1, callsign := "AFR001", origin := "LFPG", destination := "LFBO",
    aircraft := "A320", time1 := 0, time2 := 1,
    lon1 := 10, lat1 := 10, alt1 := 100, lon2 := 0, lat2 := 0, alt2 := 200 }

/-- Example segment: flight 1, second leg, starts inside the unit box. -/
def seg2A : Segment :=
  { flight_id := 1, callsign := "AFR001", origin := "LFPG", destination := "LFBO",
    aircraft := "A320", time1 := 1, time2 := 2,
    lon1 := 0, lat1 := 0, alt1 := 200, lon2 := 1, lat2 := 1, alt2 := 300 }

/-- Example trajectory table holding the single flight 1. -/
def so6Ex : SO6 := ⟨[seg1A, seg2A]⟩

/-- Example segment for the `at`/`between` boundary: interval [0, 5]. -/
def seg3B : Segment :=
  { flight_id := 2, callsign := "BAW002", origin := "EGLL", destination := "LEMD",
    aircraft := "B738", time1 := 0, time2 := 5,
    lon1 := 0, lat1 := 0, alt1 := 100, lon2 := 1, lat2 := 1, alt2 := 200 }

/-- Trajectory table holding the single segment of flight 2. -/
def so6Ex3 : SO6 := ⟨[seg3B]⟩

/-- C3, counterexample: at the time `t = 5` that is exactly the end of a
segment, `at(5)` drops the segment (`time2 > t` fails) while
`between(5, 5)` keeps it (`time2 >= before` holds), so the two segment
sets differ. -/
theorem so6_at_between_counterexample :
    (so6Ex3.at' 5).1.data = [] ∧ (so6Ex3.between 5 5).1.data = [seg3B] ∧
    (so6Ex3.at' 5).1.data ≠ (so6Ex3.between 5 5).1.data := by
  refine ⟨rfl, rfl, ?_⟩
  decide

/-- C3, amended: `at(t)` equals `between(t, t)` with the rows whose
interval ends exactly at `t` removed; in particular the two agree as soon
as no row of the table satisfies `time1 ≤ t` and `time2 = t`. -/
theorem so6_at_between_point_spec (s : SO6) (t : ℚ) :
    (s.at' t).1.data =
      ((s.between t t).1.data.filter (fun r => decide (t < r.time2))) ∧
    ((∀ r ∈ s.data, ¬(r.time1 ≤ t ∧ r.time2 = t)) →
      (s.at' t).1.data = (s.between t t).1.data) := by
  constructor
  · show s.data.filter _ = (s.data.filter _).filter _
    rw [List.filter_filter]
    apply List.filter_congr
    intro r _
    by_cases h1 : r.time1 ≤ t <;> by_cases h2 : t < r.time2 <;>
      simp [h1, h2, le_of_lt, not_lt.mp]
  · intro h
    apply List.filter_congr
    intro r hr
    apply decide_eq_decide.mpr
    constructor
    · rintro ⟨ha, hb⟩
      exact ⟨ha, le_of_lt hb⟩
    · rintro ⟨ha, hb⟩
      refine ⟨ha, lt_of_le_of_ne hb ?_⟩
      intro he
      exact h r hr ⟨ha, he.symm⟩

/-- C3 witness: on a table with no segment ending at `t = 5`, the amended
equality holds concretely. -/
theorem so6_at_between_point_spec_witness :
    (so6Ex.at' 5).1.data = (so6Ex.between 5 5).1.data :=
  (so6_at_between_point_spec so6Ex 5).2 (by decide)

/-- C5, counterexample: `ROUND_DOWN` in Python's `decimal` rounds toward
zero, not toward smaller values: for `west = -2.004` the code rounds to
`-2.00 > -2.004`, so the rounded box does not contain the original box on
the west edge. -/
theorem inside_bbox_rounding_counterexample :
    roundDown2 (-501/250) = -2 ∧ ¬(roundDown2 (-501/250) ≤ (-501/250 : ℚ)) := by
  have hc : (⌈((-501 : ℚ)/250) * 100⌉ : ℤ) = -200 := by
    rw [Int.ceil_eq_iff]
    norm_num
  have h : roundDown2 (-501/250) = -2 := by
    rw [roundDown2, if_neg (by norm_num), hc]
    norm_num
  refine ⟨h, ?_⟩
  rw [h]
  norm_num

/-- C5, amended: the bounds are quantized to hundredths, with west/south
rounded *toward zero* (`ROUND_DOWN`) and east/north *away from zero*
(`ROUND_UP`); for nonnegative values this is indeed rounding down
(resp. up) and the rounded edge stays within a hundredth, so a box with
nonnegative bounds is contained in its rounding; `west = 2.004` rounds to
`2.00` and `east = 2.004` rounds up to the next hundredth `2.01`. -/
theorem inside_bbox_rounding_spec (q : ℚ) :
    (∃ k : ℤ, roundDown2 q = (k : ℚ) / 100) ∧
    (∃ k : ℤ, roundUp2 q = (k : ℚ) / 100) ∧
    (0 ≤ q → roundDown2 q ≤ q ∧ q ≤ roundUp2 q ∧
      q - 1/100 < roundDown2 q ∧ roundUp2 q < q + 1/100) ∧
    (q ≤ 0 → q ≤ roundDown2 q ∧ roundUp2 q ≤ q) ∧
    roundDown2 (501/250) = 2 ∧ roundUp2 (501/250) = 201/100 := by
  have h100 : (0 : ℚ) < 100 := by norm_num
  have hfl := Int.floor_le (q * 100)
  have hfl2 := Int.lt_floor_add_one (q * 100)
  have hce := Int.le_ceil (q * 100)
  have hce2 := Int.ceil_lt_add_one (q * 100)
  have hc2 : (⌈((501 : ℚ)/250) * 100⌉ : ℤ) = 201 := by
    rw [Int.ceil_eq_iff]
    norm_num
  refine ⟨?_, ?_, ?_, ?_, by norm_num [roundDown2],
    by rw [roundUp2, if_pos (by norm_num : (0 : ℚ) ≤ 501/250), hc2]; norm_num⟩
  · by_cases h : 0 ≤ q
    · exact ⟨⌊q * 100⌋, by rw [roundDown2, if_pos h]⟩
    · exact ⟨⌈q * 100⌉, by rw [roundDown2, if_neg h]⟩
  · by_cases h : 0 ≤ q
    · exact ⟨⌈q * 100⌉, by rw [roundUp2, if_pos h]⟩
    · exact ⟨⌊q * 100⌋, by rw [roundUp2, if_neg h]⟩
  · intro h
    rw [roundDown2, roundUp2, if_pos h, if_pos h]
    refine ⟨?_, ?_, ?_, ?_⟩
    · rw [div_le_iff h100]
      linarith
    · rw [le_div_iff h100]
      linarith
    · rw [lt_div_iff h100]
      linarith
    · rw [div_lt_iff h100]
      linarith
  · intro h
    by_cases h0 : 0 ≤ q
    · have hq : q = 0 := le_antisymm h h0
      subst hq
      norm_num [roundDown2, roundUp2]
    · rw [roundDown2, roundUp2, if_neg h0, if_neg h0]
      constructor
      · rw [le_div_iff h100]
        linarith
      · rw [div_le_iff h100]
        linarith

/-- C5 witness: at the spec's example `2.004` the rounded west edge `2.00`
is below the original value and the east edge rounds up to `2.01`. -/
theorem inside_bbox_rounding_spec_witness :
    roundDown2 (501/250) ≤ (501/250 : ℚ) ∧ roundUp2 (501/250) = 201/100 :=
  ⟨((inside_bbox_rounding_spec (501/250)).2.2.1 (by norm_num)).1,
    (inside_bbox_rounding_spec (501/250)).2.2.2.2.2⟩

/-- C10: `len` counts distinct `flight_id` values, not rows, and is
unchanged when a row of an existing flight is duplicated. -/
theorem so6_len_spec (s : SO6) (r : Segment) (h : r ∈ s.data) :
    SO6.len s = ((s.data.map (fun x => x.flight_id)).toFinset).card ∧
    (⟨r :: s.data⟩ : SO6).data.length = s.data.length + 1 ∧
    SO6.len ⟨r :: s.data⟩ = SO6.len s := by
  refine ⟨rfl, rfl, ?_⟩
  show ((r :: s.data).map (fun x => x.flight_id)).toFinset.card = _
  rw [List.map_cons, List.toFinset_cons,
    Finset.insert_eq_self.mpr (List.mem_toFinset.mpr (List.mem_map.mpr ⟨r, h, rfl⟩))]
  rfl

/-- C10 witness: duplicating the first row of the example table adds a row
but leaves `len` unchanged. -/
theorem so6_len_spec_witness :
    SO6.len ⟨seg1A :: so6Ex.data⟩ = SO6.len so6Ex :=
  (so6_len_spec so6Ex seg1A (List.Mem.head _)).2.2

/-- The head of a list, when it exists, is a member. -/
theorem mem_of_head?_eq_some {α : Type} {l : List α} {a : α}
    (h : l.head? = some a) : a ∈ l := by
  cases l with
  | nil => simp at h
  | cons x xs =>
    have hx : x = a := by simpa using h
    subst hx
    exact List.Mem.head _

/-- Membership in the group of a flight id. -/
theorem mem_group_iff (s : SO6) (fid : ℤ) (g : Segment) :
    g ∈ s.group fid ↔ g ∈ s.data ∧ g.flight_id = fid := by
  simp [SO6.group, List.mem_filter]

/-- Rounding the west/south edge `0` of the example box. -/
theorem roundDown2_zero : roundDown2 0 = 0 := by
  rw [roundDown2, if_pos le_rfl]
  norm_num

/-- Rounding the east/north edge `1` of the example box. -/
theorem roundUp2_one : roundUp2 1 = 1 := by
  rw [roundUp2, if_pos (by norm_num : (0 : ℚ) ≤ 1)]
  have hc : (⌈((1 : ℚ) * 100)⌉ : ℤ) = 100 := by
    rw [Int.ceil_eq_iff]
    norm_num
  rw [hc]
  norm_num

/-- C4, counterexample: on the box `(0, 0, 1, 1)` the flight whose *first*
segment starts at `(10, 10)` — outside the box — is kept in full, because
its *second* segment starts inside the box and the callsign collected from
that row readmits the whole flight.  The claim says such a flight is
excluded. -/
theorem inside_bbox_counterexample :
    (so6Ex.inside_bbox (0, 0, 1, 1)).1.data = [seg1A, seg2A] ∧
    inBox (roundDown2 0) (roundUp2 1) (roundDown2 0) (roundUp2 1) seg1A = false := by
  constructor
  · simp only [SO6.inside_bbox, bboxCallsigns, roundDown2_zero, roundUp2_one]
    decide
  · rw [roundDown2_zero, roundUp2_one]
    decide

/-- C4, amended: `inside_bbox` keeps exactly the rows of those flights
whose first row's callsign is the callsign of *some* row (of any flight)
whose start point lies in the rounded box.  When callsigns and flight ids
determine each other, this means: all segments of any flight *one of
whose segments* starts inside the rounded box — not only the first. -/
theorem inside_bbox_spec (s : SO6) (bounds : ℚ × ℚ × ℚ × ℚ)
    (hcs : ∀ r1 ∈ s.data, ∀ r2 ∈ s.data,
      (r1.callsign = r2.callsign ↔ r1.flight_id = r2.flight_id)) (r : Segment) :
    r ∈ (s.inside_bbox bounds).1.data ↔
      r ∈ s.data ∧ ∃ r2 ∈ s.data, r2.flight_id = r.flight_id ∧
        inBox (roundDown2 bounds.1) (roundUp2 bounds.2.2.1)
          (roundDown2 bounds.2.1) (roundUp2 bounds.2.2.2) r2 = true := by
  show r ∈ s.data.filter _ ↔ _
  rw [List.mem_filter]
  constructor
  · rintro ⟨hr, hp⟩
    refine ⟨hr, ?_⟩
    rcases hhead : (s.group r.flight_id).head? with _ | g0
    · rw [hhead] at hp
      simp at hp
    · rw [hhead] at hp
      obtain ⟨c, hc, hcg⟩ := List.any_eq_true.mp hp
      obtain ⟨r2, hr2, hr2c⟩ := List.mem_map.mp hc
      obtain ⟨hr2d, hr2box⟩ := List.mem_filter.mp hr2
      have hg0 : g0 ∈ s.group r.flight_id := mem_of_head?_eq_some hhead
      obtain ⟨hg0d, hg0fid⟩ := (mem_group_iff s r.flight_id g0).mp hg0
      have hceq : r2.callsign = g0.callsign := by
        rw [hr2c]
        exact of_decide_eq_true hcg
      have hfid : r2.flight_id = g0.flight_id := (hcs r2 hr2d g0 hg0d).mp hceq
      exact ⟨r2, hr2d, by rw [hfid, hg0fid], hr2box⟩
  · rintro ⟨hr, r2, hr2d, hfid, hbox⟩
    refine ⟨hr, ?_⟩
    have hrg : r ∈ s.group r.flight_id := (mem_group_iff s _ r).mpr ⟨hr, rfl⟩
    rcases hhead : (s.group r.flight_id).head? with _ | g0
    · cases hl : s.group r.flight_id with
      | nil =>
        rw [hl] at hrg
        simp at hrg
      | cons x xs =>
        rw [hl] at hhead
        simp at hhead
    · dsimp only
      apply List.any_eq_true.mpr
      have hg0 : g0 ∈ s.group r.flight_id := mem_of_head?_eq_some hhead
      obtain ⟨hg0d, hg0fid⟩ := (mem_group_iff s r.flight_id g0).mp hg0
      refine ⟨r2.callsign, List.mem_map.mpr ⟨r2, List.mem_filter.mpr ⟨hr2d, hbox⟩, rfl⟩, ?_⟩
      apply decide_eq_true
      exact (hcs r2 hr2d g0 hg0d).mpr (by rw [hfid, hg0fid])

/-- C4 witness: the first segment of the example flight is kept by
`inside_bbox` because its second segment starts inside the box. -/
theorem inside_bbox_spec_witness :
    seg1A ∈ (so6Ex.inside_bbox (0, 0, 1, 1)).1.data := by
  have hbox : inBox (roundDown2 0) (roundUp2 1) (roundDown2 0) (roundUp2 1) seg2A = true := by
    rw [roundDown2_zero, roundUp2_one]
    decide
  exact (inside_bbox_spec so6Ex (0, 0, 1, 1) (by decide) seg1A).mpr
    ⟨List.Mem.head _, seg2A, by decide, by decide, hbox⟩

/-- A filename, as its list of characters. -/
abbrev Filename := List Char

/-- Splitting a character list on a separator character
(Python `str.split(sep)` for a one-character separator). -/
def splitOnChar (c : Char) : List Char → List (List Char)
  | [] => [[]]
  | x :: xs =>
    let r := splitOnChar c xs
    if x = c then [] :: r
    else
      match r with
      | h :: t => (x :: h) :: t
      | [] => [[x]]

/-- `pathlib.PurePath.name`: the component after the last `/`. -/
def pathBasename (fn : Filename) : Filename :=
  (splitOnChar '/' fn).getLastD []

/-- `pathlib.PurePath.suffixes`: empty when the name ends with a dot;
otherwise the leading dots are stripped, the name is split on `.`, and
every component but the first is a suffix, with its dot restored. -/
def suffixes (fn : Filename) : List Filename :=
  let name := pathBasename fn
  if name.getLast? = some '.' then []
  else (splitOnChar '.' (name.dropWhile (fun c => c = '.'))).tail.map (fun s => '.' :: s)

/-- The three trajectory loaders of `SO6.parse_file`. -/
inductive Loader where
  | pkl
  | so6_7z
  | so6
  deriving DecidableEq, Repr

/-- `SO6.parse_file`: dispatch on `path.suffixes` — `['.pkl']` loads the
snapshot, `['.so6', '.7z']` the archive, `['.so6']` the plain text file,
anything else raises `ValueError("Unknown extension ...")`. -/
def parse_file (fn : Filename) : Except String Loader :=
  if suffixes fn = [['.', 'p', 'k', 'l']] then .ok .pkl
  else if suffixes fn = [['.', 's', 'o', '6'], ['.', '7', 'z']] then .ok .so6_7z
  else if suffixes fn = [['.', 's', 'o', '6']] then .ok .so6
  else .error "Unknown extension"

/-- C7: the loader is selected by the suffix sequence of the filename —
`.pkl` gives the snapshot loader, `.so6.7z` the archive loader, `.so6`
the plain-text loader — and every other suffix sequence is a reported
`ValueError`, with no loader produced. -/
theorem parse_file_spec (fn : Filename) :
    (parse_file fn = .ok .pkl ↔ suffixes fn = [['.', 'p', 'k', 'l']]) ∧
    (parse_file fn = .ok .so6_7z ↔
      suffixes fn = [['.', 's', 'o', '6'], ['.', '7', 'z']]) ∧
    (parse_file fn = .ok .so6 ↔ suffixes fn = [['.', 's', 'o', '6']]) ∧
    (suffixes fn ≠ [['.', 'p', 'k', 'l']] →
      suffixes fn ≠ [['.', 's', 'o', '6'], ['.', '7', 'z']] →
      suffixes fn ≠ [['.', 's', 'o', '6']] →
      parse_file fn = .error "Unknown extension") := by
  unfold parse_file
  split_ifs with h1 h2 h3 <;> simp_all

/-- C7 witness: a `.txt` filename is rejected with the unknown-extension
error. -/
theorem parse_file_spec_witness :
    parse_file ['x', '.', 't', 'x', 't'] = .error "Unknown extension" :=
  (parse_file_spec ['x', '.', 't', 'x', 't']).2.2.2 (by decide) (by decide) (by decide)

/-- `re.match("\d{3}", text)`: the text begins with three digits. -/
def matchThreeDigits (t : List Char) : Bool :=
  match t with
  | a :: b :: c :: _ => a.isDigit && b.isDigit && c.isDigit
  | _ => false

/-- The natural number denoted by a digit string. -/
def natOfDigits (l : List Char) : ℕ :=
  l.foldl (fun acc c => 10 * acc + (c.toNat - 48)) 0

/-- Every character is a digit. -/
def isDigits (l : List Char) : Bool := l.all (fun c => c.isDigit)

/-- Python `float()` on an unsigned plain decimal string: digits with an
optional decimal point (scientific notation, inf/nan and surrounding
whitespace do not occur in AIXM altitude limits and are not modelled);
`none` is the `ValueError` raised on any other string. -/
def pyFloatPos (l : List Char) : Option ℚ :=
  match splitOnChar '.' l with
  | [ip] => if ip ≠ [] ∧ isDigits ip then some (natOfDigits ip : ℚ) else none
  | [ip, fp] =>
    if (ip ≠ [] ∨ fp ≠ []) ∧ isDigits ip ∧ isDigits fp then
      some ((natOfDigits ip : ℚ) + (natOfDigits fp : ℚ) / (10 : ℚ) ^ fp.length)
    else none
  | _ => none

/-- Python `float()` on a plain decimal string with an optional sign. -/
def pyFloat (l : List Char) : Option ℚ :=
  match l with
  | '-' :: rest => (pyFloatPos rest).map (fun q => -q)
  | '+' :: rest => pyFloatPos rest
  | _ => pyFloatPos l

/-- `SectorParser.make_polygon`, upper limit of an airspace volume block:
`float(upper.text) if upper is not None and re.match("\d{3}", upper.text)
else float("inf")`.  The input is the found element's text, if any;
`none` in the result is the `ValueError` of `float()`. -/
def parseUpperLimit (e : Option (List Char)) : Option Alt :=
  match e with
  | none => some ⊤
  | some t => if matchThreeDigits t then (pyFloat t).map altOfRat else some ⊤

/-- `SectorParser.make_polygon`, lower limit of an airspace volume block:
`float(lower.text) if lower is not None and re.match("\d{3}", lower.text)
else float("-inf")`. -/
def parseLowerLimit (e : Option (List Char)) : Option Alt :=
  match e with
  | none => some ⊥
  | some t => if matchThreeDigits t then (pyFloat t).map altOfRat else some ⊥

/-- C8: the upper (resp. lower) altitude limit of a volume block is the
numeric value of the limit element's text when the element is present and
its text begins with three digits, and defaults to `+∞` (resp. `-∞`) when
the element is absent or its text does not begin with three digits. -/
theorem make_polygon_limits_spec (e : Option (List Char)) :
    (e = none → parseUpperLimit e = some ⊤ ∧ parseLowerLimit e = some ⊥) ∧
    (∀ t, e = some t → matchThreeDigits t = false →
      parseUpperLimit e = some ⊤ ∧ parseLowerLimit e = some ⊥) ∧
    (∀ t q, e = some t → matchThreeDigits t = true → pyFloat t = some q →
      parseUpperLimit e = some (altOfRat q) ∧ parseLowerLimit e = some (altOfRat q)) := by
  refine ⟨?_, ?_, ?_⟩
  · rintro rfl
    exact ⟨rfl, rfl⟩
  · rintro t rfl h
    simp [parseUpperLimit, parseLowerLimit, h]
  · rintro t q rfl h hq
    simp [parseUpperLimit, parseLowerLimit, h, hq]

/-- C8 witness: the text `245` begins with three digits and parses to the
flight level 245, which both limits adopt. -/
theorem make_polygon_limits_spec_witness :
    parseUpperLimit (some ['2', '4', '5']) = some (altOfRat 245) ∧
    parseLowerLimit (some ['2', '4', '5']) = some (altOfRat 245) :=
  (make_polygon_limits_spec (some ['2', '4', '5'])).2.2 ['2', '4', '5'] 245 rfl
    (by decide) (by decide)

/-- 2D polygons of the external planar-geometry library, modelled as
finite sets of atomic regions: union is set union, geometric `equals` is
set equality, the empty geometry is `∅`. -/
abbrev Polygon := Finset ℕ

/-- A linestring, given by the list of its 3D coordinates. -/
abbrev LineString := List Point3

/-- `shapely.ops.cascaded_union` on a list of polygons. -/
def cascaded_union (ps : List Polygon) : Polygon := ps.foldr (fun p u => p ∪ u) ∅

/-- `ExtrudedPolygon` of `airac.py`: a 2D footprint with altitude limits. -/
structure ExtrudedPolygon where
  polygon : Polygon
  lower : Alt
  upper : Alt
  deriving DecidableEq

/-- `Sector` of `airac.py`: named, typed list of altitude bands; iterating
a sector iterates its `area`. -/
structure Sector where
  name : String
  area : List ExtrudedPolygon
  type? : Option String

/-- `Flight` of `so6.py`: the rows of one flight. -/
structure Flight where
  data : List Segment
  deriving DecidableEq

/-- `Flight.coords`: the start point of every row followed by the end
point of the last row (empty for an empty flight). -/
def Flight.coords (f : Flight) : List Point3 :=
  match f.data.getLast? with
  | none => []
  | some l => f.data.map (fun s => (s.lon1, s.lat1, s.alt1)) ++ [(l.lon2, l.lat2, l.alt2)]

/-- `Flight.linestring`: `LineString(list(self.coords))`. -/
def Flight.linestring (f : Flight) : LineString := f.coords

/-- The geometry returned by a 2D intersection: a single part or a
multipart geometry, each part carrying its coordinate list. -/
inductive Geom where
  | single (coords : List Point3)
  | multi (parts : List (List Point3))
  deriving DecidableEq

/-- `shapely` `is_empty` for an intersection result. -/
def Geom.is_empty : Geom → Bool
  | .single cs => cs.isEmpty
  | .multi ps => ps.isEmpty

/-- All coordinates of a geometry, across its parts. -/
def Geom.allCoords : Geom → List Point3
  | .single cs => cs
  | .multi ps => ps.foldr (fun l acc => l ++ acc) []

/-- The altitude test of `Flight.intersects`:
`100*layer.lower < x[2] < 100*layer.upper` (strict on both sides). -/
def inAltBand (layer : ExtrudedPolygon) (p : Point3) : Bool :=
  decide (scale100 layer.lower < altOfRat p.2.2 ∧ altOfRat p.2.2 < scale100 layer.upper)

/-- `Flight.intersects(sector)`: for each altitude band, intersect the
flight's linestring with the band's footprint; if the intersection is
non-empty, return `True` as soon as some coordinate of the intersection
(looping over the parts when it is multipart) lies strictly between the
scaled altitude limits; `False` when no band matches.  The 2D
intersection operation of the external geometry library is a parameter. -/
def Flight.intersects (inter : LineString → Polygon → Geom) (f : Flight)
    (sector : Sector) : Bool :=
  sector.area.any (fun layer =>
    let ix := inter f.linestring layer.polygon
    if !ix.is_empty then
      match ix with
      | .multi parts => parts.any (fun part => part.any (inAltBand layer))
      | .single cs => cs.any (inAltBand layer)
    else false)

/-- Membership in a fold of list appends. -/
theorem mem_foldr_append {α : Type} (ls : List (List α)) (x : α) :
    x ∈ ls.foldr (fun l acc => l ++ acc) [] ↔ ∃ l ∈ ls, x ∈ l := by
  induction ls with
  | nil => simp
  | cons l ls ih => simp [List.mem_append, ih]

/-- The per-band test of `Flight.intersects` as one boolean expression. -/
theorem geom_any_eq (layer : ExtrudedPolygon) (g : Geom) :
    (if !g.is_empty then
       match g with
       | .multi parts => parts.any (fun part => part.any (inAltBand layer))
       | .single cs => cs.any (inAltBand layer)
     else false)
    = (!g.is_empty && g.allCoords.any (inAltBand layer)) := by
  cases g with
  | single cs => cases cs <;> simp [Geom.is_empty, Geom.allCoords]
  | multi ps =>
    cases ps with
    | nil => simp [Geom.is_empty, Geom.allCoords]
    | cons p pt =>
      simp only [Geom.is_empty, Geom.allCoords, List.isEmpty_cons, Bool.not_false,
        if_true, Bool.true_and]
      rw [Bool.eq_iff_iff]
      simp only [List.any_eq_true, mem_foldr_append]
      constructor
      · rintro ⟨part, hpart, x, hx, hb⟩
        exact ⟨x, ⟨part, hpart, hx⟩, hb⟩
      · rintro ⟨x, ⟨part, hpart, hx⟩, hb⟩
        exact ⟨part, hpart, x, hx, hb⟩

/-- C1: `Flight.intersects(sector)` returns `True` exactly when some
altitude band of the sector has a non-empty 2D intersection with the
flight's full-path linestring and some coordinate of that intersection
has altitude strictly between `100*lower` and `100*upper`; the bands are
scanned in order and `False` is returned when no band matches. -/
theorem flight_intersects_spec (inter : LineString → Polygon → Geom)
    (f : Flight) (sector : Sector) :
    Flight.intersects inter f sector = true ↔
      ∃ layer ∈ sector.area,
        (inter f.linestring layer.polygon).is_empty = false ∧
        ∃ p ∈ (inter f.linestring layer.polygon).allCoords,
          scale100 layer.lower < altOfRat p.2.2 ∧
            altOfRat p.2.2 < scale100 layer.upper := by
  rw [Flight.intersects, List.any_eq_true]
  apply exists_congr
  intro layer
  apply and_congr_right
  intro _
  rw [geom_any_eq]
  simp [List.any_eq_true, inAltBand, Bool.and_eq_true]

/-- `SO6.intersects`: keeps the rows of every flight group whose
reconstructed `Flight` intersects the sector.
Returns (new SO6, receiver after the call). -/
def SO6.intersects (s : SO6) (inter : LineString → Polygon → Geom)
    (sector : Sector) : SO6 × SO6 :=
  (⟨s.data.filter (fun r => Flight.intersects inter ⟨s.group r.flight_id⟩ sector)⟩, s)

/-- C9: every filtering operation of `SO6` (`at`, `between`, `intersects`,
`inside_bbox`, `select`) returns a new `SO6` and leaves the receiver's own
segment table unchanged. -/
theorem so6_query_frame_spec (s : SO6) (t b a : ℚ) (bounds : ℚ × ℚ × ℚ × ℚ)
    (q : List String) (inter : LineString → Polygon → Geom) (sector : Sector) :
    (s.at' t).2.data = s.data ∧ (s.between b a).2.data = s.data ∧
    (s.intersects inter sector).2.data = s.data ∧
    (s.inside_bbox bounds).2.data = s.data ∧ (s.select q).2.data = s.data :=
  ⟨rfl, rfl, rfl, rfl, rfl⟩

/-- `Flight.times`: `time1` of every row followed by `time2` of the last
row (empty for an empty flight). -/
def Flight.times (f : Flight) : List ℚ :=
  match f.data.getLast? with
  | none => []
  | some l => f.data.map (fun s => s.time1) ++ [l.time2]

/-- Linear interpolation between the knots `(t1, p1)` and `(t2, p2)`. -/
def lerp (t1 : ℚ) (p1 : Point3) (t2 : ℚ) (p2 : Point3) (t : ℚ) : Point3 :=
  let r := (t - t1) / (t2 - t1)
  (p1.1 + r * (p2.1 - p1.1), p1.2.1 + r * (p2.2.1 - p1.2.1),
    p1.2.2 + r * (p2.2.2 - p1.2.2))

/-- `scipy.interpolate.interp1d` (piecewise linear) over the knot times
and points, evaluated at `t`; `none` is the out-of-bounds error raised
outside the knot range. -/
def interpAt : List ℚ → List Point3 → ℚ → Option Point3
  | [t1], [p1], t => if t = t1 then some p1 else none
  | t1 :: t2 :: ts, p1 :: p2 :: ps, t =>
    if t < t1 then none
    else if t ≤ t2 then some (lerp t1 p1 t2 p2 t)
    else interpAt (t2 :: ts) (p2 :: ps) t
  | _, _, _ => none

/-- `Flight.at`: single-point evaluation of the interpolator built over
the flight's (time, coordinate) samples. -/
def Flight.at' (f : Flight) (t : ℚ) : Option Point3 :=
  interpAt f.times f.coords t

/-- `Flight.start`: `min(self.times)`. -/
def Flight.start (f : Flight) : Option ℚ := f.times.min?

/-- `Flight.stop`: `max(self.times)`. -/
def Flight.stop (f : Flight) : Option ℚ := f.times.max?

/-- The samples selected by `np.where((before < t) & (t < after))`,
applied in parallel to the time array and the coordinate array. -/
def selWindow (before after : ℚ) : List ℚ → List Point3 → List (ℚ × Point3)
  | t :: ts, p :: ps =>
    if before < t ∧ t < after then (t, p) :: selWindow before after ts ps
    else selWindow before after ts ps
  | _, _ => []

/-- The rows of the DataFrame built by `Flight.between`: consecutive
point pairs in the columns `lon1..alt2`, the `time1`/`time2` columns
alongside, and the flight metadata taken from the template row. -/
def mkRows (tmpl : Segment) : List Point3 → List ℚ → List ℚ → List Segment
  | p :: q :: ps, t1 :: t1s, t2 :: t2s =>
    { flight_id := tmpl.flight_id, callsign := tmpl.callsign,
      origin := tmpl.origin, destination := tmpl.destination,
      aircraft := tmpl.aircraft, time1 := t1, time2 := t2,
      lon1 := p.1, lat1 := p.2.1, alt1 := p.2.2,
      lon2 := q.1, lat2 := q.2.1, alt2 := q.2.2 } :: mkRows tmpl (q :: ps) t1s t2s
  | _, _, _ => []

/-- `Flight.between(before, after)`: select the sample times strictly
inside the window; prepend `at(before)` when `before` lies strictly after
the first sample time, otherwise drop the first entry of both time
columns; append `at(after)` when `after` lies strictly before the last
sample time, otherwise drop the last entry of both time columns; then
build the row DataFrame.  `none` models the exceptions (empty flight,
out-of-bounds interpolation, column length mismatch). -/
def Flight.between (f : Flight) (before after : ℚ) : Option Flight :=
  match f.data.head?, f.times.head?, f.times.getLast? with
  | some first, some t0, some tlast =>
    let sel := selWindow before after f.times f.coords
    let selT := sel.map Prod.fst
    let selC := sel.map Prod.snd
    let left : Option (List Point3 × List ℚ × List ℚ) :=
      if t0 < before then
        match f.at' before with
        | some p => some (p :: selC, before :: selT, selT ++ [after])
        | none => none
      else some (selC, selT, (selT ++ [after]).tail)
    match left with
    | none => none
    | some (d1, u1, u2) =>
      let right : Option (List Point3 × List ℚ × List ℚ) :=
        if after < tlast then
          match f.at' after with
          | some p => some (d1 ++ [p], u1, u2)
          | none => none
        else some (d1, u1.dropLast, u2.dropLast)
      match right with
      | none => none
      | some (d2, v1, v2) =>
        if d2.length = v1.length + 1 ∧ v1.length = v2.length then
          some ⟨mkRows first d2 v1 v2⟩
        else none
  | _, _, _ => none

/-- Folding `min` over elements all above the accumulator keeps it. -/
theorem foldl_min_eq (b : ℚ) : ∀ (l : List ℚ), (∀ x ∈ l, b ≤ x) → l.foldl min b = b := by
  intro l
  induction l with
  | nil => intro _; rfl
  | cons x xs ih =>
    intro h
    show xs.foldl min (min b x) = b
    rw [min_eq_left (h x (List.Mem.head _))]
    exact ih (fun y hy => h y (List.Mem.tail _ hy))

/-- `min` of a list whose head is a lower bound of the tail. -/
theorem min?_cons_of_le (b : ℚ) (l : List ℚ) (h : ∀ x ∈ l, b ≤ x) :
    (b :: l).min? = some b := by
  show some (l.foldl min b) = some b
  rw [foldl_min_eq b l h]

/-- Folding `max` over a list ending in an upper bound yields that bound. -/
theorem foldl_max_concat (a : ℚ) : ∀ (l : List ℚ) (c : ℚ), c ≤ a → (∀ x ∈ l, x ≤ a) →
    (l ++ [a]).foldl max c = a := by
  intro l
  induction l with
  | nil =>
    intro c hc _
    show max c a = a
    exact max_eq_right hc
  | cons x xs ih =>
    intro c hc h
    show (xs ++ [a]).foldl max (max c x) = a
    exact ih (max c x) (max_le hc (h x (List.Mem.head _))) (fun y hy => h y (List.Mem.tail _ hy))

/-- `max` of a list ending in an upper bound of all its elements. -/
theorem max?_cons_concat (b a : ℚ) (l : List ℚ) (hb : b ≤ a) (h : ∀ x ∈ l, x ≤ a) :
    (b :: (l ++ [a])).max? = some a := by
  show some ((l ++ [a]).foldl max b) = some a
  rw [foldl_max_concat a l b hb h]

/-- The last element of a list, when it exists, is a member. -/
theorem mem_of_getLast?_eq_some {α : Type} : ∀ {l : List α} {a : α},
    l.getLast? = some a → a ∈ l := by
  intro l
  induction l with
  | nil =>
    intro a h
    simp at h
  | cons b bs ih =>
    intro a h
    cases hbs : bs with
    | nil =>
      subst hbs
      have hb : b = a := by simpa using h
      subst hb
      exact List.Mem.head _
    | cons c cs =>
      subst hbs
      rw [List.getLast?_cons_cons] at h
      exact List.Mem.tail _ (ih h)

/-- In a strictly increasing list the head is a lower bound. -/
theorem pairwise_head_le {l : List ℚ} (h : List.Pairwise (· < ·) l) {a : ℚ}
    (ha : l.head? = some a) : ∀ x ∈ l, a ≤ x := by
  cases l with
  | nil => simp at ha
  | cons b bs =>
    have hb : b = a := by simpa using ha
    subst hb
    intro x hx
    rcases List.mem_cons.mp hx with rfl | hx
    · exact le_rfl
    · exact le_of_lt ((List.pairwise_cons.mp h).1 x hx)

/-- In a strictly increasing list the last element is an upper bound. -/
theorem pairwise_le_getLast : ∀ {l : List ℚ}, List.Pairwise (· < ·) l → ∀ {a : ℚ},
    l.getLast? = some a → ∀ x ∈ l, x ≤ a := by
  intro l
  induction l with
  | nil =>
    intro _ a ha
    simp at ha
  | cons b bs ih =>
    intro h a ha x hx
    cases hbs : bs with
    | nil =>
      subst hbs
      have hb : b = a := by simpa using ha
      subst hb
      rcases List.mem_cons.mp hx with rfl | hx
      · exact le_rfl
      · simp at hx
    | cons c cs =>
      subst hbs
      rw [List.getLast?_cons_cons] at ha
      rcases List.mem_cons.mp hx with rfl | hx
      · have hamem : a ∈ c :: cs := mem_of_getLast?_eq_some ha
        exact le_of_lt ((List.pairwise_cons.mp h).1 a hamem)
      · exact ih (List.pairwise_cons.mp h).2 ha x hx

/-- Prepending to a nonempty list does not change its last element. -/
theorem getLast?_cons_of_ne_nil {α : Type} (a : α) {l : List α} (h : l ≠ []) :
    (a :: l).getLast? = l.getLast? := by
  cases l with
  | nil => exact absurd rfl h
  | cons b bs => rw [List.getLast?_cons_cons]

/-- `dropLast` only removes an element. -/
theorem mem_of_mem_dropLast {α : Type} : ∀ {l : List α} {x : α}, x ∈ l.dropLast → x ∈ l := by
  intro l
  induction l with
  | nil =>
    intro x hx
    simp at hx
  | cons a l' ih =>
    intro x hx
    cases l' with
    | nil => simp at hx
    | cons b l'' =>
      have hunf : (a :: b :: l'').dropLast = a :: (b :: l'').dropLast := rfl
      rw [hunf] at hx
      rcases List.mem_cons.mp hx with rfl | hx
      · exact List.Mem.head _
      · exact List.Mem.tail _ (ih hx)

/-- The interpolator succeeds at any time between the first and the last
sample times of a strictly increasing sample list. -/
theorem interpAt_isSome : ∀ (ts : List ℚ) (cs : List Point3) (t t0 tl : ℚ),
    ts.length = cs.length → ts.head? = some t0 → ts.getLast? = some tl →
    List.Chain' (· < ·) ts → t0 ≤ t → t ≤ tl → ∃ p, interpAt ts cs t = some p := by
  intro ts
  induction ts with
  | nil =>
    intro cs t t0 tl _ hh
    simp at hh
  | cons a ts' ih =>
    intro cs t t0 tl hlen hh hl hch h1 h2
    have ha : a = t0 := by simpa using hh
    subst ha
    cases ts' with
    | nil =>
      cases cs with
      | nil => simp at hlen
      | cons p cs' =>
        cases cs' with
        | nil =>
          have htl : a = tl := by simpa using hl
          subst htl
          refine ⟨p, ?_⟩
          show (if t = a then some p else none) = some p
          rw [if_pos (le_antisymm h2 h1)]
        | cons q cs'' => simp at hlen
    | cons b ts'' =>
      cases cs with
      | nil => simp at hlen
      | cons p cs' =>
        cases cs' with
        | nil => simp at hlen
        | cons q cs'' =>
          have hunf : interpAt (a :: b :: ts'') (p :: q :: cs'') t
              = if t < a then none
                else if t ≤ b then some (lerp a p b q t)
                else interpAt (b :: ts'') (q :: cs'') t := rfl
          rw [hunf, if_neg (not_lt.mpr h1)]
          by_cases h3 : t ≤ b
          · rw [if_pos h3]
            exact ⟨_, rfl⟩
          · rw [if_neg h3]
            apply ih (q :: cs'') t b tl
            · simpa using hlen
            · rfl
            · rw [List.getLast?_cons_cons] at hl
              exact hl
            · exact hch.tail
            · exact le_of_lt (lt_of_not_le h3)
            · exact h2

/-- Every sample selected by the window filter is an original sample time
strictly inside the window. -/
theorem selWindow_mem (before after : ℚ) : ∀ (ts : List ℚ) (cs : List Point3)
    (x : ℚ × Point3), x ∈ selWindow before after ts cs →
    x.1 ∈ ts ∧ before < x.1 ∧ x.1 < after := by
  intro ts
  induction ts with
  | nil =>
    intro cs x hx
    simp [selWindow] at hx
  | cons t ts' ih =>
    intro cs x hx
    cases cs with
    | nil => simp [selWindow] at hx
    | cons p cs' =>
      have hunf : selWindow before after (t :: ts') (p :: cs')
          = if before < t ∧ t < after then (t, p) :: selWindow before after ts' cs'
            else selWindow before after ts' cs' := rfl
      rw [hunf] at hx
      by_cases hc : before < t ∧ t < after
      · rw [if_pos hc] at hx
        rcases List.mem_cons.mp hx with rfl | hx
        · exact ⟨List.Mem.head _, hc⟩
        · obtain ⟨hm, hb⟩ := ih cs' x hx
          exact ⟨List.Mem.tail _ hm, hb⟩
      · rw [if_neg hc] at hx
        obtain ⟨hm, hb⟩ := ih cs' x hx
        exact ⟨List.Mem.tail _ hm, hb⟩

/-- The flight's time and coordinate sample lists have equal length. -/
theorem flight_times_length (f : Flight) : f.times.length = f.coords.length := by
  rw [Flight.times, Flight.coords]
  cases f.data.getLast? <;> simp

/-- The `time1` column of the rows built by `mkRows` is the given list,
when the column lengths fit the point list. -/
theorem mkRows_map_time1 (tmpl : Segment) : ∀ (t1s : List ℚ) (d : List Point3)
    (t2s : List ℚ), d.length = t1s.length + 1 → t1s.length = t2s.length →
    (mkRows tmpl d t1s t2s).map (fun r => r.time1) = t1s := by
  intro t1s
  induction t1s with
  | nil =>
    intro d t2s h1 _
    cases d with
    | nil => simp at h1
    | cons p d' =>
      cases d' with
      | nil => rfl
      | cons q d'' => simp at h1
  | cons x xs ih =>
    intro d t2s h1 h2
    cases d with
    | nil => simp at h1
    | cons p d' =>
      cases d' with
      | nil => simp at h1
      | cons q d'' =>
        cases t2s with
        | nil => simp at h2
        | cons y ys =>
          have htail := ih (q :: d'') ys (by simpa using h1) (by simpa using h2)
          simp [mkRows, htail]

/-- Both time columns of a row built by `mkRows` come from the given
column lists. -/
theorem mkRows_mem_times (tmpl : Segment) : ∀ (d : List Point3) (t1s t2s : List ℚ)
    (r : Segment), r ∈ mkRows tmpl d t1s t2s → r.time1 ∈ t1s ∧ r.time2 ∈ t2s := by
  intro d
  induction d with
  | nil =>
    intro t1s t2s r hr
    simp [mkRows] at hr
  | cons p d' ih =>
    intro t1s t2s r hr
    cases d' with
    | nil => simp [mkRows] at hr
    | cons q d'' =>
      cases t1s with
      | nil => simp [mkRows] at hr
      | cons x xs =>
        cases t2s with
        | nil => simp [mkRows] at hr
        | cons y ys =>
          simp only [mkRows] at hr
          rcases List.mem_cons.mp hr with rfl | hr
          · exact ⟨List.Mem.head _, List.Mem.head _⟩
          · obtain ⟨h1, h2⟩ := ih xs ys r hr
            exact ⟨List.Mem.tail _ h1, List.Mem.tail _ h2⟩

/-- The first row built by `mkRows` starts at the first point with the
first `time1` entry. -/
theorem mkRows_head_of (tmpl : Segment) (t1s : List ℚ) (d : List Point3)
    (t2s : List ℚ) (h1 : d.length = t1s.length + 1) (h2 : t1s.length = t2s.length)
    (h3 : t1s ≠ []) :
    ∃ r, (mkRows tmpl d t1s t2s).head? = some r ∧
      some r.time1 = t1s.head? ∧ some (r.lon1, r.lat1, r.alt1) = d.head? := by
  cases t1s with
  | nil => exact absurd rfl h3
  | cons x xs =>
    cases d with
    | nil => simp at h1
    | cons p d' =>
      cases d' with
      | nil => simp at h1
      | cons q d'' =>
        cases t2s with
        | nil => simp at h2
        | cons y ys => exact ⟨_, rfl, rfl, rfl⟩

/-- The last row built by `mkRows` ends at the last point with the last
`time2` entry. -/
theorem mkRows_getLast (tmpl : Segment) : ∀ (t1s : List ℚ) (d : List Point3)
    (t2s : List ℚ), d.length = t1s.length + 1 → t1s.length = t2s.length →
    t1s ≠ [] →
    ∃ lr, (mkRows tmpl d t1s t2s).getLast? = some lr ∧
      some lr.time2 = t2s.getLast? ∧ some (lr.lon2, lr.lat2, lr.alt2) = d.getLast? := by
  intro t1s
  induction t1s with
  | nil =>
    intro d t2s _ _ h3
    exact absurd rfl h3
  | cons x xs ih =>
    intro d t2s h1 h2 _
    cases d with
    | nil => simp at h1
    | cons p d' =>
      cases d' with
      | nil => simp at h1
      | cons q d'' =>
        cases t2s with
        | nil => simp at h2
        | cons y ys =>
          cases hxs : xs with
          | nil =>
            subst hxs
            have hd'' : d'' = [] := by
              have := h1
              simp at this
              exact this
            have hys : ys = [] := by
              have := h2
              simp at this
              exact this
            subst hd''
            subst hys
            exact ⟨_, rfl, rfl, rfl⟩
          | cons x2 xs2 =>
            subst hxs
            cases d'' with
            | nil =>
              simp at h1
            | cons r3 d3 =>
              cases ys with
              | nil => simp at h2
              | cons y2 ys2 =>
                obtain ⟨lr, hlast, ht2, hd⟩ := ih (q :: r3 :: d3) (y2 :: ys2)
                  (by simpa using h1) (by simpa using h2) (by simp)
                have hne : mkRows tmpl (q :: r3 :: d3) (x2 :: xs2) (y2 :: ys2) ≠ [] := by
                  intro hnil
                  rw [hnil] at hlast
                  simp at hlast
                refine ⟨lr, ?_, ?_, ?_⟩
                · have hunf : mkRows tmpl (p :: q :: r3 :: d3) (x :: x2 :: xs2)
                      (y :: y2 :: ys2)
                      = { flight_id := tmpl.flight_id, callsign := tmpl.callsign,
                          origin := tmpl.origin, destination := tmpl.destination,
                          aircraft := tmpl.aircraft, time1 := x, time2 := y,
                          lon1 := p.1, lat1 := p.2.1, alt1 := p.2.2,
                          lon2 := q.1, lat2 := q.2.1, alt2 := q.2.2 }
                        :: mkRows tmpl (q :: r3 :: d3) (x2 :: xs2) (y2 :: ys2) := rfl
                  rw [hunf, getLast?_cons_of_ne_nil _ hne]
                  exact hlast
                · rw [List.getLast?_cons_cons]
                  exact ht2
                · rw [List.getLast?_cons_cons]
                  exact hd

/-- A nonempty list has a last element. -/
theorem exists_getLast?_of_ne_nil {α : Type} : ∀ {l : List α}, l ≠ [] →
    ∃ a, l.getLast? = some a := by
  intro l
  induction l with
  | nil =>
    intro h
    exact absurd rfl h
  | cons x xs ih =>
    intro _
    cases hxs : xs with
    | nil =>
      subst hxs
      exact ⟨x, rfl⟩
    | cons y ys =>
      subst hxs
      obtain ⟨a, ha⟩ := ih (by simp)
      refine ⟨a, ?_⟩
      rw [List.getLast?_cons_cons]
      exact ha

/-- Folding `max` from below an attained upper bound reaches the bound. -/
theorem foldl_max_eq_of (a : ℚ) : ∀ (l : List ℚ) (c : ℚ), (∀ x ∈ l, x ≤ a) →
    (c = a ∨ a ∈ l) → c ≤ a → l.foldl max c = a := by
  intro l
  induction l with
  | nil =>
    intro c _ hmem _
    rcases hmem with rfl | hx
    · rfl
    · simp at hx
  | cons x xs ih =>
    intro c hub hmem hc
    show xs.foldl max (max c x) = a
    have hx_le : x ≤ a := hub x (List.Mem.head _)
    rcases hmem with rfl | hx
    · exact ih (max c x) (fun y hy => hub y (List.Mem.tail _ hy))
        (Or.inl (max_eq_left hx_le)) (max_le le_rfl hx_le)
    · rcases List.mem_cons.mp hx with hax | hx2
      · refine ih (max c x) (fun y hy => hub y (List.Mem.tail _ hy))
          (Or.inl ?_) (max_le hc (le_of_eq hax.symm))
        rw [← hax]
        exact max_eq_right hc
      · exact ih (max c x) (fun y hy => hub y (List.Mem.tail _ hy))
          (Or.inr hx2) (max_le hc hx_le)

/-- In a strictly increasing list, `max` is the last element. -/
theorem max?_eq_getLast_of_pairwise {l : List ℚ} (hpw : List.Pairwise (· < ·) l)
    {a : ℚ} (ha : l.getLast? = some a) : l.max? = some a := by
  cases l with
  | nil => simp at ha
  | cons c l' =>
    show some (l'.foldl max c) = some a
    have hub := pairwise_le_getLast hpw ha
    have hc : c ≤ a := hub c (List.Mem.head _)
    have hmem := mem_of_getLast?_eq_some ha
    have : l'.foldl max c = a := by
      rcases List.mem_cons.mp hmem with hca | hm
      · exact foldl_max_eq_of a l' c (fun x hx => hub x (List.Mem.tail _ hx))
          (Or.inl hca.symm) hc
      · exact foldl_max_eq_of a l' c (fun x hx => hub x (List.Mem.tail _ hx))
          (Or.inr hm) hc
    rw [this]

/-- Dropping the appended element after dropping the head. -/
theorem tail_concat_dropLast (l : List ℚ) (a : ℚ) :
    ((l ++ [a]).tail).dropLast = l.tail := by
  cases l with
  | nil => rfl
  | cons s ss =>
    show (ss ++ [a]).dropLast = ss
    exact List.dropLast_concat

/-- Every selected time of the window filter, read off the `time` column,
is an original sample time strictly inside the window. -/
theorem selT_mem (b a : ℚ) (f : Flight) (x : ℚ)
    (hx : x ∈ (selWindow b a f.times f.coords).map Prod.fst) :
    x ∈ f.times ∧ b < x ∧ x < a := by
  obtain ⟨pr, hpr, hpx⟩ := List.mem_map.mp hx
  obtain ⟨hm, h1, h2⟩ := selWindow_mem b a f.times f.coords pr hpr
  subst hpx
  exact ⟨hm, h1, h2⟩

/-- Shape of the flight built by `between` in the fully-synthetic case:
points `p, …, q` with time columns `b :: T` and `T ++ [a]`, every
selected time strictly inside `(b, a)`.  Its start is `b`, its stop is
`a`, its first row starts at `p` at time `b`, its last row ends at `q`
at time `a`. -/
theorem between_rows_spec (first : Segment) (p q : Point3) (C : List Point3)
    (T : List ℚ) (b a : ℚ) (hlen : C.length = T.length) (hba : b < a)
    (hT : ∀ x ∈ T, b < x ∧ x < a) :
    Flight.start ⟨mkRows first ((p :: C) ++ [q]) (b :: T) (T ++ [a])⟩ = some b ∧
    Flight.stop ⟨mkRows first ((p :: C) ++ [q]) (b :: T) (T ++ [a])⟩ = some a ∧
    (∃ r, (mkRows first ((p :: C) ++ [q]) (b :: T) (T ++ [a])).head? = some r ∧
      r.time1 = b ∧ (r.lon1, r.lat1, r.alt1) = p) ∧
    (∃ r, (mkRows first ((p :: C) ++ [q]) (b :: T) (T ++ [a])).getLast? = some r ∧
      r.time2 = a ∧ (r.lon2, r.lat2, r.alt2) = q) := by
  have hlen1 : ((p :: C) ++ [q]).length = (b :: T).length + 1 := by simp [hlen]
  have hlen2 : (b :: T).length = (T ++ [a]).length := by simp
  obtain ⟨hr, hhead, hht, hhc⟩ := mkRows_head_of first (b :: T) ((p :: C) ++ [q])
    (T ++ [a]) hlen1 hlen2 (by simp)
  obtain ⟨lr, hlast, hlt, hlc⟩ := mkRows_getLast first (b :: T) ((p :: C) ++ [q])
    (T ++ [a]) hlen1 hlen2 (by simp)
  have hht' : hr.time1 = b := Option.some.inj hht
  have hhc' : (hr.lon1, hr.lat1, hr.alt1) = p := Option.some.inj hhc
  have hlt' : lr.time2 = a := by
    rw [List.getLast?_concat] at hlt
    exact Option.some.inj hlt
  have hlc' : (lr.lon2, lr.lat2, lr.alt2) = q := by
    rw [List.getLast?_concat] at hlc
    exact Option.some.inj hlc
  have hgt : Flight.times ⟨mkRows first ((p :: C) ++ [q]) (b :: T) (T ++ [a])⟩
      = (b :: T) ++ [a] := by
    have hunf : Flight.times ⟨mkRows first ((p :: C) ++ [q]) (b :: T) (T ++ [a])⟩
        = match (mkRows first ((p :: C) ++ [q]) (b :: T) (T ++ [a])).getLast? with
          | none => []
          | some l2 => (mkRows first ((p :: C) ++ [q]) (b :: T) (T ++ [a])).map
              (fun s => s.time1) ++ [l2.time2] := rfl
    rw [hunf, hlast]
    dsimp only
    rw [mkRows_map_time1 first (b :: T) ((p :: C) ++ [q]) (T ++ [a]) hlen1 hlen2, hlt']
  refine ⟨?_, ?_, ⟨hr, hhead, hht', hhc'⟩, ⟨lr, hlast, hlt', hlc'⟩⟩
  · show (Flight.times ⟨mkRows first ((p :: C) ++ [q]) (b :: T) (T ++ [a])⟩).min? = some b
    rw [hgt, List.cons_append]
    apply min?_cons_of_le
    intro x hx
    rcases List.mem_append.mp hx with hx | hx
    · exact le_of_lt (hT x hx).1
    · have hxa : x = a := by simpa using hx
      rw [hxa]
      exact le_of_lt hba
  · show (Flight.times ⟨mkRows first ((p :: C) ++ [q]) (b :: T) (T ++ [a])⟩).max? = some a
    rw [hgt, List.cons_append]
    exact max?_cons_concat b a T (le_of_lt hba) (fun x hx => le_of_lt (hT x hx).2)

/-- C6: on a flight with strictly increasing sample times,
`Flight.between(b, a)`: (i) when `start < b < a < stop`, the result starts
exactly at `b` and stops exactly at `a`, its first row starting at the
synthetic interpolated point `at(b)` at time `b` and its last row ending
at `at(a)` at time `a`; (ii) when `b ≤ start`, the left boundary is left
unsynthesized: every produced row carries an original sample time as
`time1`; (iii) when `stop ≤ a`, the right boundary is left unsynthesized:
every produced row carries an original sample time as `time2`. -/
theorem flight_between_spec (f : Flight) (b a : ℚ)
    (hne : f.data ≠ []) (hch : List.Chain' (· < ·) f.times) :
    (∀ st en, f.start = some st → f.stop = some en → st < b → b < a → a < en →
      ∃ g, f.between b a = some g ∧ g.start = some b ∧ g.stop = some a ∧
        (∃ r, g.data.head? = some r ∧ r.time1 = b ∧
          f.at' b = some (r.lon1, r.lat1, r.alt1)) ∧
        (∃ r, g.data.getLast? = some r ∧ r.time2 = a ∧
          f.at' a = some (r.lon2, r.lat2, r.alt2))) ∧
    (∀ st, f.start = some st → b ≤ st →
      ∀ g, f.between b a = some g → ∀ r ∈ g.data, r.time1 ∈ f.times) ∧
    (∀ en, f.stop = some en → en ≤ a →
      ∀ g, f.between b a = some g → ∀ r ∈ g.data, r.time2 ∈ f.times) := by
  have hpw : List.Pairwise (· < ·) f.times := List.chain'_iff_pairwise.mp hch
  obtain ⟨first, rest, hfd⟩ : ∃ first rest, f.data = first :: rest := by
    cases hd : f.data with
    | nil => exact absurd hd hne
    | cons xx xs => exact ⟨xx, xs, rfl⟩
  have hdh : f.data.head? = some first := by
    rw [hfd]
    rfl
  obtain ⟨l, hl⟩ := exists_getLast?_of_ne_nil (l := f.data) hne
  have htimes : f.times = f.data.map (fun s => s.time1) ++ [l.time2] := by
    rw [Flight.times, hl]
  have hts : f.times = first.time1 :: (rest.map (fun s => s.time1) ++ [l.time2]) := by
    rw [htimes, hfd]
    rfl
  have ht0 : f.times.head? = some first.time1 := by
    rw [hts]
    rfl
  obtain ⟨tlast, htl⟩ := exists_getLast?_of_ne_nil (l := f.times) (by rw [hts]; simp)
  have hbound0 : ∀ x ∈ f.times, first.time1 ≤ x := pairwise_head_le hpw ht0
  have hstart : f.start = some first.time1 := by
    rw [Flight.start, hts]
    apply min?_cons_of_le
    intro x hx
    apply hbound0
    rw [hts]
    exact List.Mem.tail _ hx
  have hstop : f.stop = some tlast := by
    rw [Flight.stop]
    exact max?_eq_getLast_of_pairwise hpw htl
  refine ⟨?_, ?_, ?_⟩
  · intro st en hst hen h1 h2 h3
    rw [hstart] at hst
    rw [hstop] at hen
    rw [← Option.some.inj hst] at h1
    rw [← Option.some.inj hen] at h3
    obtain ⟨p, hp⟩ := interpAt_isSome f.times f.coords b first.time1 tlast
      (flight_times_length f) ht0 htl hch (le_of_lt h1) (le_of_lt (lt_trans h2 h3))
    obtain ⟨q, hq⟩ := interpAt_isSome f.times f.coords a first.time1 tlast
      (flight_times_length f) ht0 htl hch (le_of_lt (lt_trans h1 h2)) (le_of_lt h3)
    have hpb : f.at' b = some p := hp
    have hqb : f.at' a = some q := hq
    have hlen : (((p :: (selWindow b a f.times f.coords).map Prod.snd) ++ [q]).length
        = ((b :: (selWindow b a f.times f.coords).map Prod.fst)).length + 1 ∧
        ((b :: (selWindow b a f.times f.coords).map Prod.fst)).length
        = ((selWindow b a f.times f.coords).map Prod.fst ++ [a]).length) := by
      constructor <;> simp
    have hbet : f.between b a = some ⟨mkRows first
        ((p :: (selWindow b a f.times f.coords).map Prod.snd) ++ [q])
        (b :: (selWindow b a f.times f.coords).map Prod.fst)
        ((selWindow b a f.times f.coords).map Prod.fst ++ [a])⟩ := by
      unfold Flight.between
      rw [hdh, ht0, htl]
      dsimp only
      rw [if_pos h1, hpb]
      dsimp only
      rw [if_pos h3, hqb]
      dsimp only
      rw [if_pos hlen]
    obtain ⟨hstart_g, hstop_g, ⟨hr, hh1, hh2, hh3⟩, ⟨lr, hl1, hl2, hl3⟩⟩ :=
      between_rows_spec first p q ((selWindow b a f.times f.coords).map Prod.snd)
        ((selWindow b a f.times f.coords).map Prod.fst) b a (by simp) h2
        (fun x hx => (selT_mem b a f x hx).2)
    refine ⟨_, hbet, hstart_g, hstop_g, ⟨hr, hh1, hh2, ?_⟩, ⟨lr, hl1, hl2, ?_⟩⟩
    · rw [hh3]
      exact hpb
    · rw [hl3]
      exact hqb
  · intro st hst hble g hg r hr
    have hbt0 : b ≤ first.time1 := by
      rw [hstart] at hst
      rw [Option.some.inj hst]
      exact hble
    unfold Flight.between at hg
    rw [hdh, ht0, htl] at hg
    dsimp only at hg
    rw [if_neg (not_lt.mpr hbt0)] at hg
    dsimp only at hg
    by_cases hra : a < tlast
    · rw [if_pos hra] at hg
      cases hqa : f.at' a with
      | none =>
        rw [hqa] at hg
        simp at hg
      | some q2 =>
        rw [hqa] at hg
        dsimp only at hg
        split at hg
        · have hg' := Option.some.inj hg
          rw [← hg'] at hr
          have hmem := (mkRows_mem_times first _ _ _ r hr).1
          exact (selT_mem b a f r.time1 hmem).1
        · simp at hg
    · rw [if_neg hra] at hg
      dsimp only at hg
      split at hg
      · have hg' := Option.some.inj hg
        rw [← hg'] at hr
        have hmem := (mkRows_mem_times first _ _ _ r hr).1
        exact (selT_mem b a f r.time1 (mem_of_mem_dropLast hmem)).1
      · simp at hg
  · intro en hen hale g hg r hr
    have hta : tlast ≤ a := by
      rw [hstop] at hen
      rw [Option.some.inj hen]
      exact hale
    unfold Flight.between at hg
    rw [hdh, ht0, htl] at hg
    dsimp only at hg
    by_cases hlb : first.time1 < b
    · rw [if_pos hlb] at hg
      cases hpb : f.at' b with
      | none =>
        rw [hpb] at hg
        simp at hg
      | some p2 =>
        rw [hpb] at hg
        dsimp only at hg
        rw [if_neg (not_lt.mpr hta)] at hg
        dsimp only at hg
        split at hg
        · have hg' := Option.some.inj hg
          rw [← hg'] at hr
          have hmem := (mkRows_mem_times first _ _ _ r hr).2
          rw [List.dropLast_concat] at hmem
          exact (selT_mem b a f r.time2 hmem).1
        · simp at hg
    · rw [if_neg hlb] at hg
      dsimp only at hg
      rw [if_neg (not_lt.mpr hta)] at hg
      dsimp only at hg
      split at hg
      · have hg' := Option.some.inj hg
        rw [← hg'] at hr
        have hmem := (mkRows_mem_times first _ _ _ r hr).2
        rw [tail_concat_dropLast] at hmem
        exact (selT_mem b a f r.time2 (List.mem_of_mem_tail hmem)).1
      · simp at hg

/-- Example flight: two segments, sample times 0, 10, 20. -/
def flightEx : Flight := ⟨[
  { flight_id := 7, callsign := "DLH007", origin := "EDDF", destination := "LFPO",
    aircraft := "A319", time1 := 0, time2 := 10,
    lon1 := 0, lat1 := 0, alt1 := 0, lon2 := 10, lat2 := 10, alt2 := 100 },
  { flight_id := 7, callsign := "DLH007", origin := "EDDF", destination := "LFPO",
    aircraft := "A319", time1 := 10, time2 := 20,
    lon1 := 10, lat1 := 10, alt1 := 100, lon2 := 20, lat2 := 20, alt2 := 200 }]⟩

/-- C6 witness: clipping the example flight to the window (5, 15), which
lies strictly inside its span [0, 20], yields a flight running exactly
from 5 to 15 with interpolated endpoints. -/
theorem flight_between_spec_witness :
    ∃ g, flightEx.between 5 15 = some g ∧ g.start = some 5 ∧ g.stop = some 15 ∧
      (∃ r, g.data.head? = some r ∧ r.time1 = 5 ∧
        flightEx.at' 5 = some (r.lon1, r.lat1, r.alt1)) ∧
      (∃ r, g.data.getLast? = some r ∧ r.time2 = 15 ∧
        flightEx.at' 15 = some (r.lon2, r.lat2, r.alt2)) :=
  (flight_between_spec flightEx 5 15 (by decide)
    (by rw [show flightEx.times = [(0 : ℚ), 10, 20] from rfl,
          List.chain'_cons, List.chain'_cons]
        norm_num)).1 0 20
    (by decide) (by decide) (by decide) (by decide) (by decide)

/-- The altitude values collected from all bands:
`set(alt for _, *low_up in polyalt for alt in low_up)`, as a list before
deduplication. -/
def altList (polyalt : List (Polygon × Option Alt × Option Alt)) : List (Option Alt) :=
  polyalt.foldr (fun pa acc => pa.2.1 :: pa.2.2 :: acc) []

/-- `zip(slices, slices[1:])`: consecutive pairs of the slice altitudes. -/
def slicePairs : List Alt → List (Alt × Alt)
  | a :: b :: rest => (a, b) :: slicePairs (b :: rest)
  | _ => []

/-- The footprints of the bands whose altitude interval contains the
slice `[low, up]`: `[p for (p, low_, up_) in polyalt if low_ <= low <= up_
and low_ <= up <= up_]`.  A band with a `None` bound never matches (in
the source this case cannot reach the loop: `sorted` would already have
raised on a mixed list). -/
def matchedPoly (polyalt : List (Polygon × Option Alt × Option Alt)) (low up : Alt) :
    List Polygon :=
  (polyalt.filter (fun pa =>
    match pa.2.1, pa.2.2 with
    | some l, some u => decide (l ≤ low ∧ low ≤ u ∧ l ≤ up ∧ up ≤ u)
    | _, _ => false)).map (fun pa => pa.1)

/-- The loop of `cascaded_union_with_alt`: for each consecutive slice,
union the matching footprints into a new band; when the new band's
footprint equals (geometric `equals`) the footprint of the last emitted
band, extend that band's altitude range instead of appending.  The
accumulator is kept reversed; the final result is re-reversed. -/
def buildBands (polyalt : List (Polygon × Option Alt × Option Alt)) :
    List (Alt × Alt) → List ExtrudedPolygon → List ExtrudedPolygon
  | [], acc => acc.reverse
  | (low, up) :: rest, acc =>
    let np : ExtrudedPolygon := ⟨cascaded_union (matchedPoly polyalt low up), low, up⟩
    match acc with
    | last :: tail =>
      if np.polygon = last.polygon then
        buildBands polyalt rest (⟨np.polygon, last.lower, up⟩ :: tail)
      else
        buildBands polyalt rest (np :: last :: tail)
    | [] => buildBands polyalt rest [np]

/-- `cascaded_union_with_alt` of `airac.py`.  The result is `none` when
the Python code would raise: a mix of `None` and numeric altitude limits
makes `sorted(altitudes)` throw a `TypeError`.  When all limits are
`None`, the single unbounded band is returned; otherwise the distinct
altitudes are sorted and the consecutive slices are built and merged. -/
def cascaded_union_with_alt (polyalt : List (Polygon × Option Alt × Option Alt)) :
    Option (List ExtrudedPolygon) :=
  let alts := altList polyalt
  if alts.all (fun x => x.isSome) then
    let slices := List.insertionSort (fun x y => x ≤ y) ((alts.filterMap id).dedup)
    some (buildBands polyalt (slicePairs slices) [])
  else if alts.all (fun x => x.isNone) then
    some [⟨cascaded_union (polyalt.map (fun pa => pa.1)), ⊥, ⊤⟩]
  else
    none

/-- Membership in the union of a list of polygons. -/
theorem mem_cascaded_union (ps : List Polygon) (x : ℕ) :
    x ∈ cascaded_union ps ↔ ∃ p ∈ ps, x ∈ p := by
  induction ps with
  | nil => simp [cascaded_union]
  | cons p ps ih =>
    show x ∈ p ∪ cascaded_union ps ↔ _
    rw [Finset.mem_union, ih]
    simp

/-- Membership in the collected altitude list. -/
theorem altList_mem (polyalt : List (Polygon × Option Alt × Option Alt))
    (o : Option Alt) :
    o ∈ altList polyalt ↔ ∃ pa ∈ polyalt, o = pa.2.1 ∨ o = pa.2.2 := by
  induction polyalt with
  | nil => simp [altList]
  | cons pa rest ih =>
    show o ∈ pa.2.1 :: pa.2.2 :: altList rest ↔ _
    simp only [List.mem_cons, ih, List.mem_cons]
    constructor
    · rintro (rfl | rfl | ⟨pb, hpb, hor⟩)
      · exact ⟨pa, Or.inl rfl, Or.inl rfl⟩
      · exact ⟨pa, Or.inl rfl, Or.inr rfl⟩
      · exact ⟨pb, Or.inr hpb, hor⟩
    · rintro ⟨pb, (rfl | hpb), hor⟩
      · rcases hor with rfl | rfl
        · exact Or.inl rfl
        · exact Or.inr (Or.inl rfl)
      · exact Or.inr (Or.inr ⟨pb, hpb, hor⟩)

/-- The invariant threaded through the slice pairs: each pair starts at
or after the previous bound and is strictly increasing. -/
def PairsOK : Alt → List (Alt × Alt) → Prop
  | _, [] => True
  | t, (low, up) :: rest => t ≤ low ∧ low < up ∧ PairsOK up rest

/-- All slice pairs are strictly increasing. -/
theorem pairsOK_lt : ∀ (pairs : List (Alt × Alt)) (t : Alt), PairsOK t pairs →
    ∀ lu ∈ pairs, lu.1 < lu.2 := by
  intro pairs
  induction pairs with
  | nil =>
    intro t _ lu hlu
    simp at hlu
  | cons p rest ih =>
    intro t hok lu hlu
    obtain ⟨low, up⟩ := p
    obtain ⟨_, hp, hrest⟩ := hok
    rcases List.mem_cons.mp hlu with rfl | hlu
    · exact hp
    · exact ih up hrest lu hlu

/-- The consecutive pairs of a strictly increasing list satisfy the
`PairsOK` invariant from any lower bound. -/
theorem slicePairs_ok : ∀ (s : List Alt), List.Pairwise (· < ·) s →
    ∀ t, (∀ x ∈ s, t ≤ x) → PairsOK t (slicePairs s) := by
  intro s
  induction s with
  | nil =>
    intro _ t _
    trivial
  | cons a s' ih =>
    intro hpw t ht
    cases s' with
    | nil => trivial
    | cons b s'' =>
      refine ⟨ht a (List.Mem.head _), (List.pairwise_cons.mp hpw).1 b (List.Mem.head _), ?_⟩
      apply ih (List.pairwise_cons.mp hpw).2 b
      intro x hx
      rcases List.mem_cons.mp hx with rfl | hx
      · exact le_rfl
      · exact le_of_lt ((List.pairwise_cons.mp (List.pairwise_cons.mp hpw).2).1 x hx)

/-- Between any two members of a strictly increasing list there is a
consecutive pair contained in their interval. -/
theorem slicePairs_cover : ∀ (s : List Alt), List.Pairwise (· < ·) s →
    ∀ x y, x ∈ s → y ∈ s → x < y →
    ∃ lu ∈ slicePairs s, x ≤ lu.1 ∧ lu.2 ≤ y := by
  intro s
  induction s with
  | nil =>
    intro _ x y hx
    simp at hx
  | cons a s' ih =>
    intro hpw x y hx hy hxy
    cases s' with
    | nil =>
      have hx' : x = a := by simpa using hx
      have hy' : y = a := by simpa using hy
      rw [hx', hy'] at hxy
      exact absurd hxy (lt_irrefl a)
    | cons b s'' =>
      rcases List.mem_cons.mp hx with rfl | hx'
      · have hy' : y ∈ b :: s'' := by
          rcases List.mem_cons.mp hy with rfl | hy'
          · exact absurd hxy (lt_irrefl _)
          · exact hy'
        have htail := (List.pairwise_cons.mp hpw).2
        have hble : b ≤ y := by
          rcases List.mem_cons.mp hy' with rfl | hy''
          · exact le_rfl
          · exact le_of_lt ((List.pairwise_cons.mp htail).1 y hy'')
        exact ⟨(x, b), List.Mem.head _, le_rfl, hble⟩
      · have hxb : b ≤ x := by
          rcases List.mem_cons.mp hx' with rfl | hx''
          · exact le_rfl
          · exact le_of_lt ((List.pairwise_cons.mp (List.pairwise_cons.mp hpw).2).1 x hx'')
        have hya : a < y := lt_of_lt_of_le ((List.pairwise_cons.mp hpw).1 b (List.Mem.head _))
          (le_trans hxb (le_of_lt hxy))
        have hy' : y ∈ b :: s'' := by
          rcases List.mem_cons.mp hy with rfl | hy''
          · exact absurd hya (lt_irrefl _)
          · exact hy''
        obtain ⟨lu, hlu, h1, h2⟩ := ih (List.pairwise_cons.mp hpw).2 x y hx' hy' hxy
        exact ⟨lu, List.Mem.tail _ hlu, h1, h2⟩

/-- Every matched footprint is an input footprint. -/
theorem matchedPoly_subset (polyalt : List (Polygon × Option Alt × Option Alt))
    (low up : Alt) (p : Polygon) (hp : p ∈ matchedPoly polyalt low up) :
    p ∈ polyalt.map (fun pa => pa.1) := by
  obtain ⟨pa, hpa, hpp⟩ := List.mem_map.mp hp
  exact List.mem_map.mpr ⟨pa, (List.mem_filter.mp hpa).1, hpp⟩

/-- A band whose altitude interval contains the slice is matched. -/
theorem mem_matchedPoly (polyalt : List (Polygon × Option Alt × Option Alt))
    (low up : Alt) (pa : Polygon × Option Alt × Option Alt) (hpa : pa ∈ polyalt)
    (lo up' : Alt) (h1 : pa.2.1 = some lo) (h2 : pa.2.2 = some up')
    (hc : lo ≤ low ∧ low ≤ up' ∧ lo ≤ up ∧ up ≤ up') :
    pa.1 ∈ matchedPoly polyalt low up := by
  apply List.mem_map.mpr
  refine ⟨pa, List.mem_filter.mpr ⟨hpa, ?_⟩, rfl⟩
  rw [h1, h2]
  exact decide_eq_true hc

/-- The union of a cons of polygons, one step. -/
theorem cascaded_union_cons (p : Polygon) (ps : List Polygon) :
    cascaded_union (p :: ps) = p ∪ cascaded_union ps := rfl

/-- The union of no polygons is the empty geometry. -/
theorem cascaded_union_nil : cascaded_union ([] : List Polygon) = ∅ := rfl

/-- The merge step of `cascaded_union_with_alt` preserves the union of
the emitted footprints: the result's union is the union over the
remaining slices together with the accumulator's union. -/
theorem buildBands_union (polyalt : List (Polygon × Option Alt × Option Alt)) :
    ∀ (pairs : List (Alt × Alt)) (acc : List ExtrudedPolygon) (x : ℕ),
    x ∈ cascaded_union ((buildBands polyalt pairs acc).map (fun band => band.polygon)) ↔
      (x ∈ cascaded_union (pairs.map
        (fun lu => cascaded_union (matchedPoly polyalt lu.1 lu.2))) ∨
       x ∈ cascaded_union (acc.map (fun band => band.polygon))) := by
  intro pairs
  induction pairs with
  | nil =>
    intro acc x
    rw [show buildBands polyalt [] acc = acc.reverse from rfl]
    simp [mem_cascaded_union, List.mem_map, List.mem_reverse]
  | cons lu rest ih =>
    intro acc x
    obtain ⟨low, up⟩ := lu
    cases acc with
    | nil =>
      rw [show buildBands polyalt ((low, up) :: rest) []
          = buildBands polyalt rest
            [⟨cascaded_union (matchedPoly polyalt low up), low, up⟩] from rfl]
      rw [ih]
      simp only [List.map_cons, List.map_nil, cascaded_union_cons, cascaded_union_nil,
        Finset.mem_union, Finset.not_mem_empty]
      tauto
    | cons last tail =>
      by_cases heq : cascaded_union (matchedPoly polyalt low up) = last.polygon
      · have hunf : buildBands polyalt ((low, up) :: rest) (last :: tail)
            = buildBands polyalt rest
              (⟨cascaded_union (matchedPoly polyalt low up), last.lower, up⟩ :: tail) := by
          show (if cascaded_union (matchedPoly polyalt low up) = last.polygon
              then _ else _) = _
          rw [if_pos heq]
        rw [hunf, ih]
        simp only [List.map_cons, cascaded_union_cons, Finset.mem_union, heq]
        tauto
      · have hunf : buildBands polyalt ((low, up) :: rest) (last :: tail)
            = buildBands polyalt rest
              (⟨cascaded_union (matchedPoly polyalt low up), low, up⟩ :: last :: tail) := by
          show (if cascaded_union (matchedPoly polyalt low up) = last.polygon
              then _ else _) = _
          rw [if_neg heq]
        rw [hunf, ih]
        simp only [List.map_cons, cascaded_union_cons, Finset.mem_union]
        tauto

/-- The emitted bands are strictly increasing within themselves and
pairwise altitude-disjoint in emission order, given a well-formed slice
list and a well-formed (reversed) accumulator below the next slice. -/
theorem buildBands_sorted (polyalt : List (Polygon × Option Alt × Option Alt)) :
    ∀ (pairs : List (Alt × Alt)) (acc : List ExtrudedPolygon) (t : Alt),
    PairsOK t pairs →
    (∀ e ∈ acc, e.lower < e.upper) →
    List.Pairwise (fun x y => y.upper ≤ x.lower) acc →
    (∀ e ∈ acc, e.upper ≤ t) →
    (∀ e ∈ buildBands polyalt pairs acc, e.lower < e.upper) ∧
    List.Pairwise (fun x y => x.upper ≤ y.lower) (buildBands polyalt pairs acc) := by
  intro pairs
  induction pairs with
  | nil =>
    intro acc t _ hlt hpw _
    rw [show buildBands polyalt [] acc = acc.reverse from rfl]
    constructor
    · intro e he
      exact hlt e (List.mem_reverse.mp he)
    · rw [List.pairwise_reverse]
      exact hpw
  | cons lu rest ih =>
    intro acc t hok hlt hpw hub
    obtain ⟨low, up⟩ := lu
    obtain ⟨htl, hlu, hrest⟩ := hok
    cases acc with
    | nil =>
      rw [show buildBands polyalt ((low, up) :: rest) []
          = buildBands polyalt rest
            [⟨cascaded_union (matchedPoly polyalt low up), low, up⟩] from rfl]
      apply ih _ up hrest
      · intro e he
        rcases List.mem_cons.mp he with rfl | he
        · exact hlu
        · simp at he
      · exact List.pairwise_singleton _ _
      · intro e he
        rcases List.mem_cons.mp he with rfl | he
        · exact le_rfl
        · simp at he
    | cons last tail =>
      have hlastlt : last.lower < last.upper := hlt last (List.Mem.head _)
      have hlastub : last.upper ≤ t := hub last (List.Mem.head _)
      have hchain : last.upper ≤ low := le_trans hlastub htl
      by_cases heq : cascaded_union (matchedPoly polyalt low up) = last.polygon
      · have hunf : buildBands polyalt ((low, up) :: rest) (last :: tail)
            = buildBands polyalt rest
              (⟨cascaded_union (matchedPoly polyalt low up), last.lower, up⟩ :: tail) := by
          show (if cascaded_union (matchedPoly polyalt low up) = last.polygon
              then _ else _) = _
          rw [if_pos heq]
        rw [hunf]
        apply ih _ up hrest
        · intro e he
          rcases List.mem_cons.mp he with rfl | he
          · exact lt_of_lt_of_le hlastlt (le_trans hchain (le_of_lt hlu))
          · exact hlt e (List.Mem.tail _ he)
        · apply List.pairwise_cons.mpr
          exact ⟨fun e he => (List.pairwise_cons.mp hpw).1 e he, (List.pairwise_cons.mp hpw).2⟩
        · intro e he
          rcases List.mem_cons.mp he with rfl | he
          · exact le_rfl
          · exact le_of_lt (lt_of_le_of_lt ((List.pairwise_cons.mp hpw).1 e he)
              (lt_of_lt_of_le hlastlt (le_trans hchain (le_of_lt hlu))))
      · have hunf : buildBands polyalt ((low, up) :: rest) (last :: tail)
            = buildBands polyalt rest
              (⟨cascaded_union (matchedPoly polyalt low up), low, up⟩ :: last :: tail) := by
          show (if cascaded_union (matchedPoly polyalt low up) = last.polygon
              then _ else _) = _
          rw [if_neg heq]
        rw [hunf]
        apply ih _ up hrest
        · intro e he
          rcases List.mem_cons.mp he with rfl | he
          · exact hlu
          · exact hlt e he
        · apply List.pairwise_cons.mpr
          refine ⟨?_, hpw⟩
          intro e he
          exact le_trans (hub e he) htl
        · intro e he
          rcases List.mem_cons.mp he with rfl | he
          · exact le_rfl
          · exact le_trans (hub e he) (le_trans htl (le_of_lt hlu))

/-- C2, amended: when every input band has numeric altitude limits with
`lower < upper`, `cascaded_union_with_alt` succeeds and returns bands in
ascending altitude order that are pairwise altitude-disjoint
(`upper ≤ lower` of any later band), each band strictly increasing, and
the union of the output footprints equals the union of the input
footprints. -/
theorem cascaded_union_with_alt_spec (polyalt : List (Polygon × Option Alt × Option Alt))
    (h : ∀ pa ∈ polyalt, ∃ lo up, pa.2.1 = some lo ∧ pa.2.2 = some up ∧ lo < up) :
    ∃ res, cascaded_union_with_alt polyalt = some res ∧
      List.Pairwise (fun x y => x.upper ≤ y.lower) res ∧
      (∀ band ∈ res, band.lower < band.upper) ∧
      cascaded_union (res.map (fun band => band.polygon))
        = cascaded_union (polyalt.map (fun pa => pa.1)) := by
  have hall : (altList polyalt).all (fun x => x.isSome) = true := by
    rw [List.all_eq_true]
    intro o ho
    obtain ⟨pa, hpa, hor⟩ := (altList_mem polyalt o).mp ho
    obtain ⟨lo, up, h1, h2, _⟩ := h pa hpa
    rcases hor with rfl | rfl
    · rw [h1]
      rfl
    · rw [h2]
      rfl
  have hres : cascaded_union_with_alt polyalt
      = some (buildBands polyalt (slicePairs (List.insertionSort (fun x y => x ≤ y)
          (((altList polyalt).filterMap id).dedup))) []) := by
    unfold cascaded_union_with_alt
    dsimp only
    rw [if_pos hall]
  obtain ⟨slices, hslices⟩ : ∃ s, s = List.insertionSort (fun x y => x ≤ y)
      (((altList polyalt).filterMap id).dedup) := ⟨_, rfl⟩
  rw [← hslices] at hres
  have hsorted : List.Sorted (fun x y => x ≤ y) slices := by
    rw [hslices]
    exact List.sorted_insertionSort _ _
  have hnodup : slices.Nodup := by
    rw [hslices]
    exact ((List.perm_insertionSort _ _).nodup_iff).mpr (List.nodup_dedup _)
  have hplt : List.Pairwise (· < ·) slices :=
    (List.Pairwise.and hsorted hnodup).imp (fun hp => lt_of_le_of_ne hp.1 hp.2)
  have hmem : ∀ z : Alt, z ∈ slices ↔ some z ∈ altList polyalt := by
    intro z
    rw [hslices, (List.perm_insertionSort _ _).mem_iff, List.mem_dedup]
    simp [List.mem_filterMap]
  have hpairsok : ∃ t, PairsOK t (slicePairs slices) := by
    cases hsl2 : slices with
    | nil => exact ⟨⊥, trivial⟩
    | cons s0 srest =>
      refine ⟨s0, slicePairs_ok (s0 :: srest) (hsl2 ▸ hplt) s0 ?_⟩
      intro x hx
      rcases List.mem_cons.mp hx with rfl | hx
      · exact le_rfl
      · exact le_of_lt ((List.pairwise_cons.mp (hsl2 ▸ hplt)).1 x hx)
  obtain ⟨tOK, hok⟩ := hpairsok
  have hsortProps := buildBands_sorted polyalt (slicePairs slices) [] tOK hok
    (by simp) List.Pairwise.nil (by simp)
  refine ⟨_, hres, hsortProps.2, hsortProps.1, ?_⟩
  apply Finset.ext
  intro x
  rw [buildBands_union polyalt (slicePairs slices) [] x]
  simp only [List.map_nil, cascaded_union_nil, Finset.not_mem_empty, or_false]
  constructor
  · intro hx
    obtain ⟨sp, hsp, hxsp⟩ := (mem_cascaded_union _ x).mp hx
    obtain ⟨lu, hlu, hlueq⟩ := List.mem_map.mp hsp
    rw [← hlueq] at hxsp
    obtain ⟨p, hp, hxp⟩ := (mem_cascaded_union _ x).mp hxsp
    exact (mem_cascaded_union _ x).mpr ⟨p, matchedPoly_subset polyalt lu.1 lu.2 p hp, hxp⟩
  · intro hx
    obtain ⟨p, hp, hxp⟩ := (mem_cascaded_union _ x).mp hx
    obtain ⟨pa, hpa, hpaeq⟩ := List.mem_map.mp hp
    obtain ⟨lo, up, h1, h2, hlt⟩ := h pa hpa
    have hloin : lo ∈ slices :=
      (hmem lo).mpr ((altList_mem polyalt (some lo)).mpr ⟨pa, hpa, Or.inl h1.symm⟩)
    have hupin : up ∈ slices :=
      (hmem up).mpr ((altList_mem polyalt (some up)).mpr ⟨pa, hpa, Or.inr h2.symm⟩)
    obtain ⟨lu, hlu, hc1, hc2⟩ := slicePairs_cover slices hplt lo up hloin hupin hlt
    have hlulu : lu.1 < lu.2 := pairsOK_lt (slicePairs slices) tOK hok lu hlu
    have hcond : lo ≤ lu.1 ∧ lu.1 ≤ up ∧ lo ≤ lu.2 ∧ lu.2 ≤ up :=
      ⟨hc1, le_of_lt (lt_of_lt_of_le hlulu hc2),
        le_of_lt (lt_of_le_of_lt hc1 hlulu), hc2⟩
    have hmatched := mem_matchedPoly polyalt lu.1 lu.2 pa hpa lo up h1 h2 hcond
    apply (mem_cascaded_union _ x).mpr
    refine ⟨cascaded_union (matchedPoly polyalt lu.1 lu.2),
      List.mem_map.mpr ⟨lu, hlu, rfl⟩, ?_⟩
    apply (mem_cascaded_union _ x).mpr
    refine ⟨pa.1, hmatched, ?_⟩
    rw [hpaeq]
    exact hxp

/-- C2, counterexample: a single band whose lower and upper limits
coincide (a degenerate but legal `lower ≤ upper` band) produces *no*
output band at all — `zip(slices, slices[1:])` is empty for the single
breakpoint — so the union of the output footprints (empty) differs from
the union of the input footprints. -/
theorem cascaded_union_with_alt_counterexample :
    cascaded_union_with_alt [(({0} : Finset ℕ), some (altOfRat 0), some (altOfRat 0))]
      = some [] ∧
    cascaded_union ([(({0} : Finset ℕ), some (altOfRat 0), some (altOfRat 0))].map
      (fun pa => pa.1)) = {0} ∧
    ({0} : Finset ℕ) ≠ (∅ : Finset ℕ) := by
  refine ⟨?_, ?_, ?_⟩
  · decide
  · decide
  · decide

/-- C2 witness: a single well-formed band `[0, 10]` round-trips with its
footprint union preserved. -/
theorem cascaded_union_with_alt_spec_witness :
    ∃ res, cascaded_union_with_alt
        [(({0} : Finset ℕ), some (altOfRat 0), some (altOfRat 10))] = some res ∧
      List.Pairwise (fun x y => x.upper ≤ y.lower) res ∧
      (∀ band ∈ res, band.lower < band.upper) ∧
      cascaded_union (res.map (fun band => band.polygon))
        = cascaded_union ([(({0} : Finset ℕ), some (altOfRat 0), some (altOfRat 10))].map
          (fun pa => pa.1)) :=
  cascaded_union_with_alt_spec _ (by
    intro pa hpa
    rcases List.mem_cons.mp hpa with rfl | hpa
    · exact ⟨altOfRat 0, altOfRat 10, rfl, rfl, by decide⟩
    · simp at hpa)
